/-
Verification of the videojitter recording-analysis pipeline
(`analyze-recording.py`) against its natural-language specification.

The embedding models signal values as rationals (the script computes with
floating point; the spec's arithmetic claims are about the real-number
formulas, which we render over ℚ). Arrays of samples are `Array ℚ`; an
edge is a pair `(offset, polarity)` with `polarity = true` for a rising
edge, exactly as in `find_edges`, which returns a series of booleans
indexed by sample offset.
-/
import Mathlib

namespace Videojitter

/-- An Edge: integer sample offset paired with a polarity boolean
(`false` = falling, `true` = rising), as produced by `find_edges`. -/
abbrev Edge := Nat × Bool

/-! Kernel-reducible primitives. Mathlib's lattice `min`/`max`/`abs` on
`ℚ` do not always reduce inside the kernel, so the executable
definitions below use these `if`-based forms; bridge lemmas relate them
to the standard operations. -/

/-- Minimum of two rationals, by comparison. -/
def qmin (a b : ℚ) : ℚ := if a ≤ b then a else b

/-- Maximum of two rationals, by comparison. -/
def qmax (a b : ℚ) : ℚ := if a ≤ b then b else a

/-- Absolute value of a rational, by comparison with zero. -/
def qabs (a : ℚ) : ℚ := if 0 ≤ a then a else -a

theorem qmin_eq_min (a b : ℚ) : qmin a b = min a b := (min_def a b).symm

theorem qmax_eq_max (a b : ℚ) : qmax a b = max a b := by
  rcases le_total a b with h | h
  · rw [qmax, if_pos h, max_eq_right h]
  · rcases eq_or_lt_of_le h with h' | h'
    · simp [qmax, h']
    · rw [qmax, if_neg (not_le_of_lt h'), max_eq_left h]

theorem qabs_eq_abs (a : ℚ) : qabs a = |a| := by
  rcases le_or_lt 0 a with h | h
  · rw [qabs, if_pos h, abs_of_nonneg h]
  · rw [qabs, if_neg (not_le_of_lt h), abs_of_neg h]

/-! ### Polarity Resolver (analyze-recording.py lines 332-345)

The script reads the first and last detected edges. If their polarities
are equal it prints a warning and leaves the edge series untouched;
otherwise, when the first edge is falling (`not first_edge`), it inverts
every polarity bit (`edges = ~edges`). Offsets are never modified. -/

/-- Polarity resolution step, returning the warning flag together with
the (possibly flipped) edge list. `true` in the first component means the
ambiguous-polarity warning was printed on stderr. -/
def resolvePolarityWithWarning (edges : List Edge) : Bool × List Edge :=
  match edges.head?, edges.getLast? with
  | some f, some l =>
    if f.2 = l.2 then (true, edges)
    else if f.2 = false then (false, edges.map (fun e => (e.1, !e.2)))
    else (false, edges)
  | _, _ => (false, edges)

/-- The edge list after polarity resolution. -/
def resolvePolarity (edges : List Edge) : List Edge :=
  (resolvePolarityWithWarning edges).2

/-! ### Downsampler (lines 221-224) and Upsampler (lines 280-285) -/

/-- Downsampling ratio: `np.floor(recording_sample_rate / (1 / min_edge_separation_seconds))`. -/
def downsamplingRatio (sampleRate minEdgeSeparationSeconds : ℚ) : ℚ :=
  (⌊sampleRate / (1 / minEdgeSeparationSeconds)⌋ : ℤ)

/-- Sample rate after the downsampling stage: `recording_sample_rate /= downsampling_ratio`. -/
def downsampledRate (sampleRate minEdgeSeparationSeconds : ℚ) : ℚ :=
  sampleRate / downsamplingRatio sampleRate minEdgeSeparationSeconds

/-- Upsampling ratio: `np.ceil((1 / timestamp_resolution_seconds) / recording_sample_rate)`. -/
def upsampleRatio (timestampResolutionSeconds currentRate : ℚ) : ℚ :=
  (⌈(1 / timestampResolutionSeconds) / currentRate⌉ : ℤ)

/-- The upsampling stage's effect on the sample rate and the two recorded
boundary offsets (lines 283-285): each is multiplied by the upsampling
ratio. Returns `(new rate, new start index, new end index)`. -/
def upsampleStep (currentRate timestampResolutionSeconds : ℚ) (startIndex endIndex : ℚ) :
    ℚ × ℚ × ℚ :=
  let ratio := upsampleRatio timestampResolutionSeconds currentRate
  (currentRate * ratio, startIndex * ratio, endIndex * ratio)

/-! ### Boundary Locator (lines 247-277)

`scipy.signal.correlate(recording_slope, boundaries_reference_samples,
mode="valid")` computes the full-overlap sliding dot products. The
candidate mask is `abs(cc) >= max(abs(cc)) * threshold_ratio`; candidate
indexes are the positions where the mask is set, in ascending order. -/

/-- Valid-mode cross-correlation of `a` against `v`:
`cc[k] = sum_j a[k+j] * v[j]`, one entry per full-overlap position. -/
def crossCorrelationValid (a v : Array ℚ) : Array ℚ :=
  Array.ofFn (n := a.size + 1 - v.size) fun k =>
    (((List.range v.size).map fun j => a[(k : Nat) + j]! * v[j]!).sum)

/-- Maximum of the absolute values of an array (`np.max(np.abs(cc))`).
For nonempty input this is the true maximum since every `abs` is `≥ 0`. -/
def npMaxAbs (cc : Array ℚ) : ℚ :=
  cc.foldl (fun acc v => qmax acc (qabs v)) 0

/-- Indexes of the set entries of the boundary-candidate mask
(`np.nonzero(abs_cc >= np.max(abs_cc) * threshold_ratio)[0]`), ascending. -/
def boundaryCandidateIndexes (cc : Array ℚ) (thresholdRatio : ℚ) : List Nat :=
  (List.range cc.size).filter (fun i => npMaxAbs cc * thresholdRatio ≤ qabs cc[i]!)

/-- Python slice `a[start:stop]` for nonnegative bounds (clamps at the
array length, empty when `stop ≤ start`). -/
def arraySlice (a : Array ℚ) (start stop : Nat) : List ℚ :=
  (a.toList.drop start).take (stop - start)

/-! ### Edge Detector: embedding of `scipy.signal.find_peaks`
(called from `find_edges`, lines 141-152)

`find_peaks` first collects local maxima (`_local_maxima_1d`): positions
`i` with a strictly smaller sample on the left, a plateau of equal
samples, then a strictly smaller sample on the right; the plateau
midpoint is reported. It then filters by height, by minimum distance
(highest peaks keep priority) and by prominence, in that order. -/

/-- Fuel-driven scan for the end of a plateau; the wrapper `plateauEnd`
supplies fuel `iMax - i`, which always suffices since the loop advances
one position per step. Structural recursion on the fuel keeps the
function kernel-reducible. -/
def plateauEndAux (x : Array ℚ) (v : ℚ) (iMax : Nat) : Nat → Nat → Nat
  | 0, i => i
  | fuel + 1, i =>
    if i < iMax then
      if x[i]! = v then plateauEndAux x v iMax fuel (i + 1) else i
    else i

/-- First index `j ≥ i` with `j ≥ iMax` or `x[j] ≠ v`: the exclusive end
of the plateau of value `v` starting at `i` (the inner `while` loop of
`_local_maxima_1d`). -/
def plateauEnd (x : Array ℚ) (v : ℚ) (iMax : Nat) (i : Nat) : Nat :=
  plateauEndAux x v iMax (iMax - i) i

/-- Fuel-driven body of `_local_maxima_1d`, scanning from position `i`;
the wrapper supplies fuel `iMax - i`, sufficient because each step
advances `i` by at least one. -/
def localMaximaFromAux (x : Array ℚ) (iMax : Nat) : Nat → Nat → List Nat
  | 0, _ => []
  | fuel + 1, i =>
    if i < iMax then
      if 1 ≤ i ∧ x[i - 1]! < x[i]! then
        if x[plateauEnd x (x[i]!) iMax (i + 1)]! < x[i]! then
          (i + (plateauEnd x (x[i]!) iMax (i + 1) - 1)) / 2 ::
            localMaximaFromAux x iMax fuel (plateauEnd x (x[i]!) iMax (i + 1) + 1)
        else localMaximaFromAux x iMax fuel (i + 1)
      else localMaximaFromAux x iMax fuel (i + 1)
    else []

/-- The scan of `_local_maxima_1d` starting at position `i` with
exclusive scan end `iMax = x.size - 1`: emits the midpoint of every
plateau that rises on the left and falls on the right, then resumes
after the plateau. -/
def localMaximaFrom (x : Array ℚ) (iMax : Nat) (i : Nat) : List Nat :=
  localMaximaFromAux x iMax (iMax - i) i

/-- All local maxima of `x` (`scipy.signal._peak_finding_utils._local_maxima_1d`). -/
def localMaxima (x : Array ℚ) : List Nat :=
  localMaximaFrom x (x.size - 1) 1

/-- Downward sweep of `_select_by_peak_distance`: starting at `k - 1`,
clear the keep flag of every peak strictly within `d` of `pj` and stop
at the first one at distance `≥ d` (or at the left end). Called with
`k = j`, so the first examined index is `j - 1`. -/
def killDown (peaks : Array Nat) (d : ℤ) (pj : ℤ) : Nat → Array Bool → Array Bool
  | 0, keep => keep
  | k + 1, keep =>
    if pj - (peaks[k]! : ℤ) < d then killDown peaks d pj k (keep.set! k false) else keep

/-- Upward sweep of `_select_by_peak_distance`, fuel-driven: starting at
`k`, clear the keep flag of every peak strictly within `d` of `pj` and
stop at the first one at distance `≥ d` (or at index `n`). -/
def killUpAux (peaks : Array Nat) (d : ℤ) (pj : ℤ) (n : Nat) : Nat → Nat → Array Bool → Array Bool
  | 0, _, keep => keep
  | fuel + 1, k, keep =>
    if k < n then
      if (peaks[k]! : ℤ) - pj < d then
        killUpAux peaks d pj n fuel (k + 1) (keep.set! k false)
      else keep
    else keep

/-- Insert an index into an index list already ascending by priority
(auxiliary for `argsortInsertionSort`). -/
def argsortInsert (prio : Array ℚ) (j : Nat) : List Nat → List Nat
  | [] => [j]
  | k :: rest =>
    if prio[j]! ≤ prio[k]! then j :: k :: rest else k :: argsortInsert prio j rest

/-- Insertion sort of index lists by priority, modelling `np.argsort`
(ascending; the relative order of equal priorities is unspecified in
numpy's default sort, the model resolves ties stably). -/
def argsortInsertionSort (prio : Array ℚ) : List Nat → List Nat
  | [] => []
  | j :: rest => argsortInsert prio j (argsortInsertionSort prio rest)

/-- The keep mask computed by
`scipy.signal._peak_finding._select_by_peak_distance`: all peaks start
kept; peaks are visited in decreasing priority (height) order and every
surviving peak clears the flag of its neighbours closer than
`ceil(distance)` on both sides. `np.argsort` leaves the relative order
of equal priorities unspecified; the embedding uses a stable sort. -/
def selectKeep (peaks : List Nat) (priority : List ℚ) (distance : ℚ) : Array Bool :=
  (argsortInsertionSort priority.toArray (List.range peaks.length)).reverse.foldl
    (fun keep j =>
      if keep[j]! then
        killUpAux peaks.toArray (⌈distance⌉ : ℤ) (peaks.toArray[j]! : ℤ) peaks.length
          (peaks.length - (j + 1)) (j + 1)
          (killDown peaks.toArray (⌈distance⌉ : ℤ) (peaks.toArray[j]! : ℤ) j keep)
      else keep)
    (Array.mkArray peaks.length true)

/-- Embedding of `scipy.signal._peak_finding._select_by_peak_distance`:
returns the peaks whose keep flag survives, in their original order. -/
def selectByPeakDistance (peaks : List Nat) (priority : List ℚ) (distance : ℚ) : List Nat :=
  ((List.range peaks.length).filter (fun i => (selectKeep peaks priority distance)[i]!)).map
    (fun i => peaks.toArray[i]!)

/-- Leftward minimum scan of `_peak_prominences`: walk left from index
`i` while the samples stay `≤ v` (the peak height), accumulating the
minimum; stop at the first sample `> v` or past the left end. -/
def promLeftMin (x : Array ℚ) (v : ℚ) : Nat → ℚ → ℚ
  | 0, acc => if x[0]! ≤ v then qmin acc (x[0]!) else acc
  | i + 1, acc => if x[i + 1]! ≤ v then promLeftMin x v i (qmin acc (x[i + 1]!)) else acc

/-- Rightward minimum scan of `_peak_prominences`, fuel-driven: walk
right from index `k` up to `iMaxIncl` while the samples stay `≤ v`,
accumulating the minimum. -/
def promRightMinAux (x : Array ℚ) (v : ℚ) (iMaxIncl : Nat) : Nat → Nat → ℚ → ℚ
  | 0, _, acc => acc
  | fuel + 1, k, acc =>
    if k ≤ iMaxIncl then
      if x[k]! ≤ v then promRightMinAux x v iMaxIncl fuel (k + 1) (qmin acc (x[k]!)) else acc
    else acc

/-- Prominence of the peak at index `peak`
(`scipy.signal._peak_finding_utils._peak_prominences`, no window limit):
peak height minus the larger of the left and right base minima. -/
def peakProminence (x : Array ℚ) (peak : Nat) : ℚ :=
  let v := x[peak]!
  let leftMin := promLeftMin x v peak v
  let rightMin := promRightMinAux x v (x.size - 1) (x.size - peak) peak v
  v - qmax leftMin rightMin

/-- Embedding of `scipy.signal.find_peaks(x, height, distance, prominence)`
as invoked by `find_edges`: local maxima, then the height filter, then
the distance filter (priority = peak height), then the prominence
filter, in scipy's evaluation order. (scipy additionally rejects
`distance < 1` with an exception before doing any work; the embedding is
total and the distance sweep removes nothing in that regime.) -/
def findPeaks (x : Array ℚ) (height : ℚ) (distance : ℚ) (prominence : ℚ) : List Nat :=
  (selectByPeakDistance ((localMaxima x).filter (fun p => height ≤ x[p]!))
      (((localMaxima x).filter (fun p => height ≤ x[p]!)).map (fun p => x[p]!))
      distance).filter
    (fun p => prominence ≤ peakProminence x p)

/-- Insert an edge into an edge list already ascending by offset
(auxiliary for `sortByOffset`). -/
def insertByOffset (e : Edge) : List Edge → List Edge
  | [] => [e]
  | f :: rest => if e.1 ≤ f.1 then e :: f :: rest else f :: insertByOffset e rest

/-- Insertion sort of edges by offset, modelling
`pd.Series(...).sort_index()` (the offsets being the index). -/
def sortByOffset : List Edge → List Edge
  | [] => []
  | e :: rest => insertByOffset e (sortByOffset rest)

/-- Embedding of `find_edges` (lines 127-164): falling-edge peaks found
on the negated slope, rising-edge peaks on the raw slope, tagged `false`
resp. `true`, concatenated and sorted by offset (`pd.Series(...).sort_index()`). -/
def findEdges (slope : Array ℚ)
    (minimumNegativeHeight minimumPositiveHeight : ℚ)
    (minimumFallingEdgeDistance minimumRisingEdgeDistance : ℚ)
    (minimumNegativeProminence minimumPositiveProminence : ℚ) : List Edge :=
  sortByOffset
    ((findPeaks (slope.map (fun q => -q)) minimumNegativeHeight minimumFallingEdgeDistance
        minimumNegativeProminence).map (fun i => (i, false)) ++
      (findPeaks slope minimumPositiveHeight minimumRisingEdgeDistance
        minimumPositiveProminence).map (fun i => (i, true)))

/-! ### The analysis pipeline (lines 247-348)

The pipeline is modelled from the downsampled Slope Signal onwards; the
raw-recording filtering stages (`scipy.signal.resample_poly` with a
designed FIR kernel) are floating-point filter computations outside the
claims' scope, so the polyphase upsampler of line 290 enters the model
as an explicit function parameter `upsample` and the downsampled slope
and the downsampled sample rate enter as inputs. Everything else —
cross-correlation, candidate selection, both fatal assertions, trimming,
edge detection, polarity resolution and output formatting — is embedded
directly. -/

instance exceptDecidableEq {ε α : Type} [DecidableEq ε] [DecidableEq α] :
    DecidableEq (Except ε α) := fun x y =>
  match x, y with
  | Except.error a, Except.error b =>
    if h : a = b then Decidable.isTrue (by rw [h])
    else Decidable.isFalse (by simp [h])
  | Except.ok a, Except.ok b =>
    if h : a = b then Decidable.isTrue (by rw [h])
    else Decidable.isFalse (by simp [h])
  | Except.error _, Except.ok _ => Decidable.isFalse (fun h => Except.noConfusion h)
  | Except.ok _, Except.error _ => Decidable.isFalse (fun h => Except.noConfusion h)

/-- Python `int()` applied to a rational: truncation toward zero. -/
def pyInt (q : ℚ) : ℤ := if 0 ≤ q then ⌊q⌋ else ⌈q⌉

/-- Minimum entry of an array (`ndarray.min()`; meaningful for nonempty input). -/
def npMin (a : Array ℚ) : ℚ := a.foldl qmin a[0]!

/-- Maximum entry of an array (`ndarray.max()`; meaningful for nonempty input). -/
def npMax (a : Array ℚ) : ℚ := a.foldl qmax a[0]!

/-- Boundary-candidate offsets found by the pipeline (lines 247-266). -/
def pipelineCandidates (slope ref : Array ℚ) (thresholdRatio : ℚ) : List Nat :=
  boundaryCandidateIndexes (crossCorrelationValid slope ref) thresholdRatio

/-- `test_signal_start_index` (line 268): earliest boundary candidate. -/
def pipelineStart (slope ref : Array ℚ) (thresholdRatio : ℚ) : Nat :=
  (pipelineCandidates slope ref thresholdRatio).head!

/-- `test_signal_end_index` (lines 269-271): latest boundary candidate
plus the reference waveform length. -/
def pipelineStop (slope ref : Array ℚ) (thresholdRatio : ℚ) : Nat :=
  (pipelineCandidates slope ref thresholdRatio).getLast! + ref.size

/-- The trimmed Slope Signal (line 277): the Python slice
`recording_slope[test_signal_start_index:test_signal_end_index]`. -/
def pipelineTrimmed (slope ref : Array ℚ) (thresholdRatio : ℚ) : Array ℚ :=
  (arraySlice slope (pipelineStart slope ref thresholdRatio)
    (pipelineStop slope ref thresholdRatio)).toArray

/-- The upsampled Slope Signal (line 290), via the injected upsampler. -/
def pipelineUpsampled (upsample : Array ℚ → Array ℚ) (slope ref : Array ℚ)
    (thresholdRatio : ℚ) : Array ℚ :=
  upsample (pipelineTrimmed slope ref thresholdRatio)

/-- The Edge Set the pipeline detects (lines 304-323): `find_edges` on
the upsampled slope with heights and prominences scaled from the slope
extrema and the shared minimum edge distance
`int(min_edge_separation_seconds * 2 * recording_sample_rate)`. -/
def pipelineEdges (upsample : Array ℚ → Array ℚ) (slope ref : Array ℚ)
    (thresholdRatio dsRate timestampResolution minEdgeSeparation : ℚ)
    (negHeightRatio posHeightRatio negProminenceRatio posProminenceRatio : ℚ) : List Edge :=
  findEdges (pipelineUpsampled upsample slope ref thresholdRatio)
    (-(npMin (pipelineUpsampled upsample slope ref thresholdRatio)) * negHeightRatio)
    (npMax (pipelineUpsampled upsample slope ref thresholdRatio) * posHeightRatio)
    ((pyInt (minEdgeSeparation * 2 * (dsRate * upsampleRatio timestampResolution dsRate)) : ℤ))
    ((pyInt (minEdgeSeparation * 2 * (dsRate * upsampleRatio timestampResolution dsRate)) : ℤ))
    (-(npMin (pipelineUpsampled upsample slope ref thresholdRatio)) * negProminenceRatio)
    (npMax (pipelineUpsampled upsample slope ref thresholdRatio) * posProminenceRatio)

/-- The run from the cross-correlation stage to the CSV rows. A fatal
`assert` (or a `ValueError` raised by numpy on an empty reduction) is an
`Except.error`: the process exits non-zero without emitting any
primary-output row. On success the rows are one per resolved edge, the
timestamp being `(offset + scaled start index) / final rate` (line 347). -/
def analyzePipeline (upsample : Array ℚ → Array ℚ) (slope ref : Array ℚ)
    (thresholdRatio dsRate timestampResolution minEdgeSeparation : ℚ)
    (negHeightRatio posHeightRatio negProminenceRatio posProminenceRatio : ℚ) :
    Except String (List (ℚ × Bool)) :=
  if (pipelineCandidates slope ref thresholdRatio).length ≤ 1 then
    Except.error "assert boundary_candidate_indexes.size > 1"
  else if (pipelineUpsampled upsample slope ref thresholdRatio).size = 0 then
    Except.error "min of an empty slope"
  else if (pipelineEdges upsample slope ref thresholdRatio dsRate timestampResolution
      minEdgeSeparation negHeightRatio posHeightRatio negProminenceRatio
      posProminenceRatio).length = 0 then
    Except.error "assert edges.index.size > 0"
  else
    Except.ok ((resolvePolarity (pipelineEdges upsample slope ref thresholdRatio dsRate
        timestampResolution minEdgeSeparation negHeightRatio posHeightRatio
        negProminenceRatio posProminenceRatio)).map
      (fun e => (((e.1 : ℚ) +
          (pipelineStart slope ref thresholdRatio : ℚ) *
            upsampleRatio timestampResolution dsRate) /
        (dsRate * upsampleRatio timestampResolution dsRate), e.2)))

/-! ### Lemmas about the Polarity Resolver -/

theorem resolvePolarityWithWarning_cons (e : Edge) (rest : List Edge) :
    resolvePolarityWithWarning (e :: rest) =
      if e.2 = ((e :: rest).getLast (by simp)).2 then (true, e :: rest)
      else if e.2 = false then (false, (e :: rest).map (fun f => (f.1, !f.2)))
      else (false, e :: rest) := by
  rw [resolvePolarityWithWarning]
  rw [List.head?_cons, List.getLast?_eq_getLast (e :: rest) (by simp)]

theorem resolvePolarity_nil : resolvePolarity [] = [] := rfl

/-- When first and last polarities agree the resolver warns and returns
the edges untouched. -/
theorem resolvePolarity_of_same (e : Edge) (rest : List Edge)
    (h : e.2 = ((e :: rest).getLast (by simp)).2) :
    resolvePolarityWithWarning (e :: rest) = (true, e :: rest) := by
  rw [resolvePolarityWithWarning_cons, if_pos h]

/-- When the first edge is falling and the last is not, every polarity
bit is inverted. -/
theorem resolvePolarity_of_first_falling (e : Edge) (rest : List Edge)
    (hdiff : e.2 ≠ ((e :: rest).getLast (by simp)).2) (hf : e.2 = false) :
    resolvePolarityWithWarning (e :: rest) =
      (false, (e :: rest).map (fun f => (f.1, !f.2))) := by
  rw [resolvePolarityWithWarning_cons, if_neg hdiff, if_pos hf]

/-- When the first edge is rising and the last is not, the edges are
returned untouched without a warning. -/
theorem resolvePolarity_of_first_rising (e : Edge) (rest : List Edge)
    (hdiff : e.2 ≠ ((e :: rest).getLast (by simp)).2) (hf : e.2 = true) :
    resolvePolarityWithWarning (e :: rest) = (false, e :: rest) := by
  rw [resolvePolarityWithWarning_cons, if_neg hdiff, if_neg (by simp [hf])]

/-- The resolver never touches edge offsets. -/
theorem resolvePolarity_map_fst (edges : List Edge) :
    (resolvePolarity edges).map Prod.fst = edges.map Prod.fst := by
  cases edges with
  | nil => rfl
  | cons e rest =>
    unfold resolvePolarity
    rw [resolvePolarityWithWarning_cons]
    split
    · rfl
    · split
      · simp
      · rfl

/-! ### Claim C1: the Polarity Resolver's flip rule -/

/-- C1 counterexample: the claim states that with a falling first edge the
stored bits are left alone and with a rising first edge they are all
inverted. The code does the opposite: on `[(0, falling), (5, rising)]`
the resolver does not return the input unchanged, and on
`[(0, rising), (5, falling)]` it performs no inversion at all. -/
theorem polarity_flip_rule_counterexample :
    resolvePolarity [(0, false), (5, true)] ≠ [(0, false), (5, true)] ∧
    resolvePolarity [(0, true), (5, false)] = [(0, true), (5, false)] := by
  decide

/-- C1 (amended): for every Edge Set whose first and last edges have
different polarities, if the first edge is falling the resolver inverts
every polarity bit in the Edge Set (so that polarity `true` denotes a
transition to white), and if the first edge is rising it keeps the
stored bits unchanged; edge offsets are never changed (pure boolean
flip, no re-detection). -/
theorem polarity_flip_rule (e : Edge) (rest : List Edge)
    (hdiff : e.2 ≠ ((e :: rest).getLast (by simp)).2) :
    (e.2 = false → resolvePolarity (e :: rest) = (e :: rest).map (fun f => (f.1, !f.2))) ∧
    (e.2 = true → resolvePolarity (e :: rest) = e :: rest) ∧
    (resolvePolarity (e :: rest)).map Prod.fst = (e :: rest).map Prod.fst := by
  refine ⟨?_, ?_, resolvePolarity_map_fst _⟩
  · intro hf
    unfold resolvePolarity
    rw [resolvePolarity_of_first_falling e rest hdiff hf]
  · intro ht
    unfold resolvePolarity
    rw [resolvePolarity_of_first_rising e rest hdiff ht]

/-- Witness for `polarity_flip_rule` at the concrete Edge Set
`[(0, falling), (5, rising)]`. -/
theorem polarity_flip_rule_witness :
    ((0, false) : Edge).2 ≠ (([(0, false), (5, true)] : List Edge).getLast (by simp)).2 ∧
    resolvePolarity [(0, false), (5, true)] = [(0, true), (5, false)] :=
  ⟨by decide, (polarity_flip_rule (0, false) [(5, true)] (by decide)).1 rfl⟩

/-! ### Claim C9: idempotence of the Polarity Resolver -/

/-- C9: applying the Polarity Resolver (warn-and-leave-unchanged when the
first and last polarities match, otherwise conditionally flip all
polarity bits) a second time to the Edge Set produced by a first
application leaves that Edge Set unchanged. -/
theorem resolvePolarity_idempotent (edges : List Edge) :
    resolvePolarity (resolvePolarity edges) = resolvePolarity edges := by
  cases edges with
  | nil => rfl
  | cons e rest =>
    by_cases hsame : e.2 = ((e :: rest).getLast (by simp)).2
    · unfold resolvePolarity
      rw [resolvePolarity_of_same e rest hsame]
      rw [resolvePolarity_of_same e rest hsame]
    · cases hf : e.2 with
      | false =>
        have hlt : ((e :: rest).getLast (by simp)).2 = true := by
          cases hl : ((e :: rest).getLast (by simp)).2
          · exact absurd (hf.trans hl.symm) hsame
          · rfl
        unfold resolvePolarity
        rw [resolvePolarity_of_first_falling e rest hsame hf]
        have hdiff2 : ((e.1, !e.2) : Edge).2 ≠
            ((((e.1, !e.2) : Edge) :: rest.map (fun f => (f.1, !f.2))).getLast (by simp)).2 := by
          have h1 := List.getLast_map (fun f : Edge => ((f.1, !f.2) : Edge)) (e :: rest)
            (by simp)
          have h2 : ((((e.1, !e.2) : Edge) :: rest.map (fun f => (f.1, !f.2))).getLast
              (by simp)).2 = !((e :: rest).getLast (by simp)).2 := congrArg Prod.snd h1
          intro hc
          apply hsame
          have h3 : (!e.2) = (!((e :: rest).getLast (by simp)).2) := by
            rw [← h2]
            exact hc
          simpa using h3
        have h3 := resolvePolarity_of_first_rising (e.1, !e.2)
          (rest.map (fun f => (f.1, !f.2))) hdiff2 (by simp [hf])
        simp only [List.map_cons] at h3 ⊢
        rw [h3]
      | true =>
        unfold resolvePolarity
        rw [resolvePolarity_of_first_rising e rest hsame hf]
        rw [resolvePolarity_of_first_rising e rest hsame hf]

/-! ### Claim C4: the downsampling ratio -/

/-- C4: for every recording sample rate `R > 0` and minimum edge
separation `Δt > 0` with `⌊R·Δt⌋ ≥ 1`, the downsampling ratio computed
by the program (`floor(R / (1/Δt))`) equals `⌊R·Δt⌋` and the sample rate
after downsampling equals `R` divided by that ratio exactly. -/
theorem downsampler_ratio_and_rate (sampleRate minEdgeSeparationSeconds : ℚ)
    (hR : 0 < sampleRate) (hdt : 0 < minEdgeSeparationSeconds)
    (hM : 1 ≤ ⌊sampleRate * minEdgeSeparationSeconds⌋) :
    downsamplingRatio sampleRate minEdgeSeparationSeconds
      = ((⌊sampleRate * minEdgeSeparationSeconds⌋ : ℤ) : ℚ) ∧
    downsampledRate sampleRate minEdgeSeparationSeconds
      = sampleRate / ((⌊sampleRate * minEdgeSeparationSeconds⌋ : ℤ) : ℚ) := by
  have key : sampleRate / (1 / minEdgeSeparationSeconds)
      = sampleRate * minEdgeSeparationSeconds := by
    rw [div_div_eq_mul_div, div_one]
  constructor
  · rw [downsamplingRatio, key]
  · rw [downsampledRate, downsamplingRatio, key]

/-- Witness for `downsampler_ratio_and_rate` at 48000 Hz and 0.5 ms. -/
theorem downsampler_ratio_and_rate_witness :
    0 < (48000 : ℚ) ∧ 0 < ((1 : ℚ)/2000) ∧ 1 ≤ ⌊(48000 : ℚ) * ((1 : ℚ)/2000)⌋ ∧
    (downsamplingRatio 48000 ((1 : ℚ)/2000)
        = ((⌊(48000 : ℚ) * ((1 : ℚ)/2000)⌋ : ℤ) : ℚ) ∧
      downsampledRate 48000 ((1 : ℚ)/2000)
        = 48000 / ((⌊(48000 : ℚ) * ((1 : ℚ)/2000)⌋ : ℤ) : ℚ)) :=
  ⟨by with_unfolding_all decide, by with_unfolding_all decide, by with_unfolding_all decide,
    downsampler_ratio_and_rate 48000 ((1 : ℚ)/2000) (by with_unfolding_all decide)
      (by with_unfolding_all decide) (by with_unfolding_all decide)⟩

/-! ### Claim C5: the upsampling ratio -/

/-- C5: for every timestamp resolution `τ > 0` and current rate `R′ > 0`,
the upsampling ratio computed by the program equals `⌈(1/τ)/R′⌉`, the
final sample rate equals `R′` times that ratio, and the recorded
boundary start and end offsets are multiplied by exactly that ratio. -/
theorem upsampler_ratio_rate_and_offsets (currentRate timestampResolutionSeconds : ℚ)
    (startIndex endIndex : ℚ)
    (hτ : 0 < timestampResolutionSeconds) (hR : 0 < currentRate) :
    upsampleRatio timestampResolutionSeconds currentRate
        = ((⌈(1 / timestampResolutionSeconds) / currentRate⌉ : ℤ) : ℚ) ∧
    upsampleStep currentRate timestampResolutionSeconds startIndex endIndex
      = (currentRate * upsampleRatio timestampResolutionSeconds currentRate,
         startIndex * upsampleRatio timestampResolutionSeconds currentRate,
         endIndex * upsampleRatio timestampResolutionSeconds currentRate) ∧
    1 / timestampResolutionSeconds
      ≤ currentRate * upsampleRatio timestampResolutionSeconds currentRate := by
  refine ⟨rfl, rfl, ?_⟩
  have hceil : (1 / timestampResolutionSeconds) / currentRate
      ≤ ((⌈(1 / timestampResolutionSeconds) / currentRate⌉ : ℤ) : ℚ) := Int.le_ceil _
  have h2 := mul_le_mul_of_nonneg_left hceil (le_of_lt hR)
  rw [mul_div_cancel₀ _ (ne_of_gt hR)] at h2
  exact h2

/-- Witness for `upsampler_ratio_rate_and_offsets`: τ = 0.1 s, rate 4 Hz,
boundary offsets 2 and 3 (upsample ratio ⌈10/4⌉ = 3). -/
theorem upsampler_ratio_rate_and_offsets_witness :
    0 < ((1 : ℚ)/10) ∧ 0 < (4 : ℚ) ∧
    (upsampleRatio ((1 : ℚ)/10) 4 = ((⌈(1 / ((1 : ℚ)/10)) / 4⌉ : ℤ) : ℚ) ∧
      upsampleStep 4 ((1 : ℚ)/10) 2 3
        = (4 * upsampleRatio ((1 : ℚ)/10) 4, 2 * upsampleRatio ((1 : ℚ)/10) 4,
           3 * upsampleRatio ((1 : ℚ)/10) 4) ∧
      1 / ((1 : ℚ)/10) ≤ 4 * upsampleRatio ((1 : ℚ)/10) 4) :=
  ⟨by with_unfolding_all decide, by with_unfolding_all decide,
    upsampler_ratio_rate_and_offsets 4 ((1 : ℚ)/10) 2 3 (by with_unfolding_all decide)
      (by with_unfolding_all decide)⟩

/-! ### npMaxAbs support lemmas -/

theorem le_qmax_left (a b : ℚ) : a ≤ qmax a b := by
  rw [qmax_eq_max]; exact le_max_left a b

theorem le_qmax_right (a b : ℚ) : b ≤ qmax a b := by
  rw [qmax_eq_max]; exact le_max_right a b

theorem qmax_cases (a b : ℚ) : qmax a b = a ∨ qmax a b = b := by
  rw [qmax]; split
  · exact Or.inr rfl
  · exact Or.inl rfl

theorem foldl_qmax_ge_init (l : List ℚ) (a : ℚ) :
    a ≤ l.foldl (fun acc v => qmax acc (qabs v)) a := by
  induction l generalizing a with
  | nil => exact le_refl a
  | cons v rest ih =>
    exact le_trans (le_qmax_left a (qabs v)) (ih (qmax a (qabs v)))

theorem foldl_qmax_ge_mem (l : List ℚ) :
    ∀ v ∈ l, ∀ a, qabs v ≤ l.foldl (fun acc w => qmax acc (qabs w)) a := by
  induction l with
  | nil =>
    intro v hv
    cases hv
  | cons w rest ih =>
    intro v hv a
    rcases List.mem_cons.mp hv with h | h
    · subst h
      exact le_trans (le_qmax_right a (qabs v)) (foldl_qmax_ge_init rest _)
    · exact ih v h _

theorem foldl_qmax_attained (l : List ℚ) :
    ∀ a, l.foldl (fun acc w => qmax acc (qabs w)) a = a ∨
      ∃ v ∈ l, l.foldl (fun acc w => qmax acc (qabs w)) a = qabs v := by
  induction l with
  | nil =>
    intro a
    exact Or.inl rfl
  | cons w rest ih =>
    intro a
    rcases ih (qmax a (qabs w)) with h | ⟨v, hv, hev⟩
    · rcases qmax_cases a (qabs w) with hc | hc
      · left
        rw [List.foldl_cons, h, hc]
      · right
        exact ⟨w, List.mem_cons_self w rest, by rw [List.foldl_cons, h, hc]⟩
    · right
      refine ⟨v, List.mem_cons_of_mem w hv, ?_⟩
      rw [List.foldl_cons]
      exact hev

theorem npMaxAbs_eq_foldl (cc : Array ℚ) :
    npMaxAbs cc = cc.toList.foldl (fun acc v => qmax acc (qabs v)) 0 :=
  Array.foldl_eq_foldl_toList _ _ cc

theorem npMaxAbs_nonneg (cc : Array ℚ) : 0 ≤ npMaxAbs cc := by
  rw [npMaxAbs_eq_foldl]
  exact foldl_qmax_ge_init _ 0

theorem le_npMaxAbs (cc : Array ℚ) (i : Nat) (h : i < cc.size) :
    qabs cc[i]! ≤ npMaxAbs cc := by
  rw [npMaxAbs_eq_foldl]
  rw [getElem!_pos cc i h]
  exact foldl_qmax_ge_mem cc.toList cc[i] (Array.getElem_mem_toList cc h) 0

theorem npMaxAbs_attained (cc : Array ℚ) (hne : cc.size ≠ 0) :
    ∃ i, i < cc.size ∧ npMaxAbs cc = qabs cc[i]! := by
  rw [npMaxAbs_eq_foldl]
  rcases foldl_qmax_attained cc.toList 0 with h | ⟨v, hv, hev⟩
  · refine ⟨0, Nat.pos_of_ne_zero hne, ?_⟩
    have h0 : cc[0] ∈ cc.toList := Array.getElem_mem_toList cc (Nat.pos_of_ne_zero hne)
    have hle : qabs cc[0] ≤ cc.toList.foldl (fun acc w => qmax acc (qabs w)) 0 :=
      foldl_qmax_ge_mem cc.toList cc[0] h0 0
    rw [h] at hle ⊢
    have h0le : 0 ≤ qabs cc[0] := by
      rw [qabs_eq_abs]; exact abs_nonneg _
    rw [getElem!_pos cc 0 (Nat.pos_of_ne_zero hne)]
    exact le_antisymm h0le hle
  · rcases List.mem_iff_getElem.mp hv with ⟨i, hi, hiv⟩
    have hisize : i < cc.size := by
      simpa using hi
    refine ⟨i, hisize, ?_⟩
    rw [hev, getElem!_pos cc i hisize, ← hiv]
    have : cc.toList[i] = cc[i] := by
      simp
    rw [this]

/-! ### Claim C10: the global maximum is always a boundary candidate -/

/-- C10: for every non-empty cross-correlation array and every threshold
ratio `≤ 1`, a position attaining the global maximum of the absolute
cross-correlation satisfies the candidate condition, so the candidate
set is never empty; consequently the fewer-than-two-candidates check can
only trip when exactly one candidate exists. -/
theorem boundary_candidates_never_empty (cc : Array ℚ) (thresholdRatio : ℚ)
    (hne : cc.size ≠ 0) (hρ : thresholdRatio ≤ 1) :
    (∃ i, i < cc.size ∧ npMaxAbs cc = qabs cc[i]! ∧
      i ∈ boundaryCandidateIndexes cc thresholdRatio) ∧
    boundaryCandidateIndexes cc thresholdRatio ≠ [] ∧
    ((boundaryCandidateIndexes cc thresholdRatio).length ≤ 1 →
      (boundaryCandidateIndexes cc thresholdRatio).length = 1) := by
  obtain ⟨i, hi, hmax⟩ := npMaxAbs_attained cc hne
  have hcond : npMaxAbs cc * thresholdRatio ≤ qabs cc[i]! := by
    rw [← hmax]
    exact mul_le_of_le_one_right (npMaxAbs_nonneg cc) hρ
  have hmem : i ∈ boundaryCandidateIndexes cc thresholdRatio := by
    rw [boundaryCandidateIndexes, List.mem_filter]
    exact ⟨List.mem_range.mpr hi, by simpa using hcond⟩
  have hnonempty : boundaryCandidateIndexes cc thresholdRatio ≠ [] :=
    List.ne_nil_of_mem hmem
  refine ⟨⟨i, hi, hmax, hmem⟩, hnonempty, ?_⟩
  intro hle
  have : 0 < (boundaryCandidateIndexes cc thresholdRatio).length :=
    List.length_pos.mpr hnonempty
  omega

/-- Witness for `boundary_candidates_never_empty` on the two-sample
cross-correlation `[2, 1]` with threshold ratio 1 (one candidate). -/
theorem boundary_candidates_never_empty_witness :
    (#[(2 : ℚ), 1] : Array ℚ).size ≠ 0 ∧ (1 : ℚ) ≤ 1 ∧
    ((∃ i, i < (#[(2 : ℚ), 1] : Array ℚ).size ∧
        npMaxAbs #[(2 : ℚ), 1] = qabs (#[(2 : ℚ), 1] : Array ℚ)[i]! ∧
        i ∈ boundaryCandidateIndexes #[(2 : ℚ), 1] 1) ∧
      boundaryCandidateIndexes #[(2 : ℚ), 1] 1 ≠ [] ∧
      ((boundaryCandidateIndexes #[(2 : ℚ), 1] 1).length ≤ 1 →
        (boundaryCandidateIndexes #[(2 : ℚ), 1] 1).length = 1)) :=
  ⟨by decide, by with_unfolding_all decide,
    boundary_candidates_never_empty #[(2 : ℚ), 1] 1 (by decide)
      (by with_unfolding_all decide)⟩

/-! ### Boundary Locator support lemmas -/

theorem mem_boundaryCandidateIndexes (cc : Array ℚ) (ρ : ℚ) (i : Nat) :
    i ∈ boundaryCandidateIndexes cc ρ ↔
      i < cc.size ∧ npMaxAbs cc * ρ ≤ qabs cc[i]! := by
  rw [boundaryCandidateIndexes, List.mem_filter, List.mem_range]
  simp

theorem size_crossCorrelationValid (a v : Array ℚ) :
    (crossCorrelationValid a v).size = a.size + 1 - v.size := Array.size_ofFn _

theorem boundaryCandidateIndexes_pairwise (cc : Array ℚ) (ρ : ℚ) :
    (boundaryCandidateIndexes cc ρ).Pairwise (· < ·) :=
  List.Pairwise.filter _ (List.pairwise_lt_range cc.size)

theorem head!_eq_head (l : List Nat) (h : l ≠ []) : l.head! = l.head h :=
  List.head!_of_head? (List.head?_eq_head h)

theorem getLast!_eq_getLast (l : List Nat) (h : l ≠ []) : l.getLast! = l.getLast h := by
  have h1 : l.getLast? = some (l.getLast h) := List.getLast?_eq_getLast l h
  have h2 : l.getLast! = l.getLast?.get! := by
    cases l
    · contradiction
    · rfl
  rw [h2, h1]
  rfl

theorem head_le_getLast_of_pairwise_lt (l : List Nat) (h : l ≠ [])
    (hp : l.Pairwise (· < ·)) : l.head h ≤ l.getLast h := by
  cases l with
  | nil => contradiction
  | cons x rest =>
    cases rest with
    | nil => simp [List.getLast_singleton]
    | cons y t =>
      have hl : (x :: y :: t).getLast h = (y :: t).getLast (by simp) :=
        List.getLast_cons (by simp)
      have hmem : (y :: t).getLast (by simp) ∈ y :: t := List.getLast_mem _
      rw [hl]
      exact le_of_lt ((List.pairwise_cons.mp hp).1 _ hmem)

theorem pipelineStart_mem (slope ref : Array ℚ) (ρ : ℚ)
    (hne : pipelineCandidates slope ref ρ ≠ []) :
    pipelineStart slope ref ρ ∈ pipelineCandidates slope ref ρ := by
  rw [pipelineStart, head!_eq_head _ hne]
  exact List.head_mem hne

theorem pipeline_start_stop_bounds (slope ref : Array ℚ) (ρ : ℚ)
    (href : 0 < ref.size) (hrs : ref.size ≤ slope.size)
    (hne : pipelineCandidates slope ref ρ ≠ []) :
    pipelineStart slope ref ρ < pipelineStop slope ref ρ ∧
    pipelineStop slope ref ρ ≤ slope.size ∧
    pipelineStart slope ref ρ < slope.size := by
  have hstart := pipelineStart_mem slope ref ρ hne
  have hlast_mem : (pipelineCandidates slope ref ρ).getLast hne
      ∈ pipelineCandidates slope ref ρ := List.getLast_mem hne
  have hsz := size_crossCorrelationValid slope ref
  have hstart_lt := ((mem_boundaryCandidateIndexes _ ρ _).mp hstart).1
  have hlast_lt := ((mem_boundaryCandidateIndexes _ ρ _).mp hlast_mem).1
  have hle : pipelineStart slope ref ρ ≤ (pipelineCandidates slope ref ρ).getLast hne := by
    rw [pipelineStart, head!_eq_head _ hne]
    exact head_le_getLast_of_pairwise_lt _ hne (boundaryCandidateIndexes_pairwise _ ρ)
  have hstop : pipelineStop slope ref ρ
      = (pipelineCandidates slope ref ρ).getLast hne + ref.size := by
    rw [pipelineStop, getLast!_eq_getLast _ hne]
  rw [hstop]
  omega

/-- Python slicing agrees with the mathematical half-open window
`[start, stop)` whenever the bounds are inside the array. -/
theorem arraySlice_eq_window (a : Array ℚ) (s e : Nat) (hs : s ≤ e) (he : e ≤ a.size) :
    arraySlice a s e = (List.range (e - s)).map (fun k => a[s + k]!) := by
  apply List.ext_getElem
  · simp only [arraySlice, List.length_take, List.length_drop, List.length_map,
      List.length_range, Array.length_toList]
    omega
  · intro i h1 h2
    have hib : i < e - s := by
      simpa using h2
    have hsi : s + i < a.size := by omega
    simp only [arraySlice, List.getElem_take, List.getElem_drop, List.getElem_map,
      List.getElem_range]
    rw [getElem!_pos a (s + i) hsi]
    exact Array.getElem_toList hsi

/-! ### Claim C3: the Boundary Locator -/

/-- C3: a position is a boundary candidate exactly when the absolute
value of the cross-correlation at that position is at least
`threshold_ratio` times the global maximum of the absolute
cross-correlation; the trimmed Slope Signal is the half-open window
`[start, stop)` of the downsampled slope, where `start` is the earliest
candidate offset and `stop` is the latest candidate offset plus the
reference waveform length. -/
theorem boundary_locator_spec (slope ref : Array ℚ) (thresholdRatio : ℚ)
    (href : 0 < ref.size) (hrs : ref.size ≤ slope.size)
    (hne : pipelineCandidates slope ref thresholdRatio ≠ []) :
    (∀ i, i ∈ pipelineCandidates slope ref thresholdRatio ↔
      i < (crossCorrelationValid slope ref).size ∧
      thresholdRatio * npMaxAbs (crossCorrelationValid slope ref)
        ≤ |(crossCorrelationValid slope ref)[i]!|) ∧
    (pipelineTrimmed slope ref thresholdRatio).toList =
      (List.range (pipelineStop slope ref thresholdRatio
          - pipelineStart slope ref thresholdRatio)).map
        (fun k => slope[pipelineStart slope ref thresholdRatio + k]!) := by
  constructor
  · intro i
    rw [pipelineCandidates, mem_boundaryCandidateIndexes, qabs_eq_abs, mul_comm]
  · obtain ⟨h1, h2, _⟩ := pipeline_start_stop_bounds slope ref thresholdRatio href hrs hne
    rw [pipelineTrimmed, arraySlice_eq_window slope _ _ (le_of_lt h1) h2]

/-- Witness for `boundary_locator_spec`: slope `[1, 0, 0, 1]`, reference
`[1]`, threshold ratio `1/2` (candidates at offsets 0 and 3, window
`[0, 4)`). -/
theorem boundary_locator_spec_witness :
    0 < (#[(1 : ℚ)] : Array ℚ).size ∧
    (#[(1 : ℚ)] : Array ℚ).size ≤ (#[(1 : ℚ), 0, 0, 1] : Array ℚ).size ∧
    pipelineCandidates #[(1 : ℚ), 0, 0, 1] #[(1 : ℚ)] (1/2) ≠ [] ∧
    ((∀ i, i ∈ pipelineCandidates #[(1 : ℚ), 0, 0, 1] #[(1 : ℚ)] (1/2) ↔
        i < (crossCorrelationValid #[(1 : ℚ), 0, 0, 1] #[(1 : ℚ)]).size ∧
        (1/2 : ℚ) * npMaxAbs (crossCorrelationValid #[(1 : ℚ), 0, 0, 1] #[(1 : ℚ)])
          ≤ |(crossCorrelationValid #[(1 : ℚ), 0, 0, 1] #[(1 : ℚ)])[i]!|) ∧
      (pipelineTrimmed #[(1 : ℚ), 0, 0, 1] #[(1 : ℚ)] (1/2)).toList =
        (List.range (pipelineStop #[(1 : ℚ), 0, 0, 1] #[(1 : ℚ)] (1/2)
            - pipelineStart #[(1 : ℚ), 0, 0, 1] #[(1 : ℚ)] (1/2))).map
          (fun k => (#[(1 : ℚ), 0, 0, 1] : Array ℚ)[pipelineStart #[(1 : ℚ), 0, 0, 1]
            #[(1 : ℚ)] (1/2) + k]!)) :=
  ⟨by decide, by decide, by with_unfolding_all decide,
    boundary_locator_spec #[(1 : ℚ), 0, 0, 1] #[(1 : ℚ)] (1/2) (by decide) (by decide)
      (by with_unfolding_all decide)⟩

/-! ### Sorting lemmas for the Edge Set merge -/

theorem insertByOffset_perm (e : Edge) (l : List Edge) :
    (insertByOffset e l).Perm (e :: l) := by
  induction l with
  | nil => exact List.Perm.refl _
  | cons f rest ih =>
    rw [insertByOffset]
    split
    · exact List.Perm.refl _
    · exact List.Perm.trans (List.Perm.cons f ih) (List.Perm.swap e f rest)

theorem sortByOffset_perm (l : List Edge) : (sortByOffset l).Perm l := by
  induction l with
  | nil => exact List.Perm.refl _
  | cons e rest ih =>
    exact List.Perm.trans (insertByOffset_perm e (sortByOffset rest)) (List.Perm.cons e ih)

theorem insertByOffset_pairwise_le (e : Edge) (l : List Edge)
    (h : l.Pairwise (fun a b => a.1 ≤ b.1)) :
    (insertByOffset e l).Pairwise (fun a b : Edge => a.1 ≤ b.1) := by
  induction l with
  | nil => simp [insertByOffset]
  | cons f rest ih =>
    rw [insertByOffset]
    rcases List.pairwise_cons.mp h with ⟨hf, hrest⟩
    split
    · rename_i hef
      refine List.pairwise_cons.mpr ⟨?_, h⟩
      intro b hb
      rcases List.mem_cons.mp hb with hb | hb
      · subst hb
        exact hef
      · exact le_trans hef (hf b hb)
    · rename_i hef
      refine List.pairwise_cons.mpr ⟨?_, ih hrest⟩
      intro b hb
      have hb' : b ∈ e :: rest := (insertByOffset_perm e rest).mem_iff.mp hb
      rcases List.mem_cons.mp hb' with hb' | hb'
      · subst hb'
        exact le_of_lt (Nat.lt_of_not_le hef)
      · exact hf b hb'

theorem sortByOffset_pairwise_le (l : List Edge) :
    (sortByOffset l).Pairwise (fun a b : Edge => a.1 ≤ b.1) := by
  induction l with
  | nil => exact List.Pairwise.nil
  | cons e rest ih => exact insertByOffset_pairwise_le e (sortByOffset rest) ih

/-! ### Local-maxima lemmas -/

theorem plateauEndAux_ge (x : Array ℚ) (v : ℚ) (iMax : Nat) :
    ∀ fuel i, i ≤ plateauEndAux x v iMax fuel i := by
  intro fuel
  induction fuel with
  | zero =>
    intro i
    exact le_refl i
  | succ fuel ih =>
    intro i
    simp only [plateauEndAux]
    split
    · split
      · exact le_trans (Nat.le_succ i) (ih (i + 1))
      · exact le_refl i
    · exact le_refl i

theorem plateauEndAux_le (x : Array ℚ) (v : ℚ) (iMax : Nat) :
    ∀ fuel i, i ≤ iMax → plateauEndAux x v iMax fuel i ≤ iMax := by
  intro fuel
  induction fuel with
  | zero =>
    intro i hi
    exact hi
  | succ fuel ih =>
    intro i hi
    simp only [plateauEndAux]
    split
    · split
      · exact ih (i + 1) (by omega)
      · exact hi
    · exact hi

theorem plateauEndAux_plateau (x : Array ℚ) (v : ℚ) (iMax : Nat) :
    ∀ fuel i j, i ≤ j → j < plateauEndAux x v iMax fuel i → x[j]! = v := by
  intro fuel
  induction fuel with
  | zero =>
    intro i j hij hj
    simp only [plateauEndAux] at hj
    omega
  | succ fuel ih =>
    intro i j hij hj
    simp only [plateauEndAux] at hj
    by_cases h1 : i < iMax
    · rw [if_pos h1] at hj
      by_cases h2 : x[i]! = v
      · rw [if_pos h2] at hj
        rcases Nat.eq_or_lt_of_le hij with hji | hji
        · exact hji ▸ h2
        · exact ih (i + 1) j hji hj
      · rw [if_neg h2] at hj
        omega
    · rw [if_neg h1] at hj
      omega

theorem plateauEnd_ge (x : Array ℚ) (v : ℚ) (iMax i : Nat) : i ≤ plateauEnd x v iMax i :=
  plateauEndAux_ge x v iMax _ i

theorem plateauEnd_le (x : Array ℚ) (v : ℚ) (iMax i : Nat) (h : i ≤ iMax) :
    plateauEnd x v iMax i ≤ iMax :=
  plateauEndAux_le x v iMax _ i h

theorem plateauEnd_plateau (x : Array ℚ) (v : ℚ) (iMax i j : Nat) (hij : i ≤ j)
    (hj : j < plateauEnd x v iMax i) : x[j]! = v :=
  plateauEndAux_plateau x v iMax _ i j hij hj

theorem localMaximaFromAux_lb (x : Array ℚ) (iMax : Nat) :
    ∀ fuel i m, m ∈ localMaximaFromAux x iMax fuel i → i ≤ m := by
  intro fuel
  induction fuel with
  | zero =>
    intro i m hm
    simp [localMaximaFromAux] at hm
  | succ fuel ih =>
    intro i m hm
    simp only [localMaximaFromAux] at hm
    by_cases h1 : i < iMax
    · rw [if_pos h1] at hm
      by_cases h2 : 1 ≤ i ∧ x[i - 1]! < x[i]!
      · rw [if_pos h2] at hm
        by_cases h3 : x[plateauEnd x (x[i]!) iMax (i + 1)]! < x[i]!
        · rw [if_pos h3] at hm
          have hia : i + 1 ≤ plateauEnd x (x[i]!) iMax (i + 1) := plateauEnd_ge x _ iMax _
          rcases List.mem_cons.mp hm with hm | hm
          · subst hm
            omega
          · have := ih _ m hm
            omega
        · rw [if_neg h3] at hm
          have := ih _ m hm
          omega
      · rw [if_neg h2] at hm
        have := ih _ m hm
        omega
    · rw [if_neg h1] at hm
      simp at hm

theorem localMaximaFromAux_pairwise (x : Array ℚ) (iMax : Nat) :
    ∀ fuel i, (localMaximaFromAux x iMax fuel i).Pairwise (· < ·) := by
  intro fuel
  induction fuel with
  | zero =>
    intro i
    simp [localMaximaFromAux]
  | succ fuel ih =>
    intro i
    simp only [localMaximaFromAux]
    split
    · split
      · split
        · refine List.pairwise_cons.mpr ⟨?_, ih _⟩
          intro m hm
          have hlb := localMaximaFromAux_lb x iMax fuel _ m hm
          have hia : i + 1 ≤ plateauEnd x (x[i]!) iMax (i + 1) := plateauEnd_ge x _ iMax _
          omega
        · exact ih _
      · exact ih _
    · exact List.Pairwise.nil

theorem localMaxima_pairwise (x : Array ℚ) : (localMaxima x).Pairwise (· < ·) :=
  localMaximaFromAux_pairwise x _ _ 1

/-- Membership characterization: every reported local maximum is the
midpoint of a plateau `[l, r]` that strictly rises on its left and
strictly falls on its right. -/
theorem localMaximaFromAux_spec (x : Array ℚ) (iMax : Nat) :
    ∀ fuel i m, 1 ≤ i → m ∈ localMaximaFromAux x iMax fuel i →
      ∃ l r, 1 ≤ l ∧ l < iMax ∧ l ≤ r ∧ r + 1 ≤ iMax ∧ m = (l + r) / 2 ∧
        x[l - 1]! < x[l]! ∧ (∀ j, l ≤ j → j ≤ r → x[j]! = x[l]!) ∧ x[r + 1]! < x[l]! := by
  intro fuel
  induction fuel with
  | zero =>
    intro i m _ hm
    simp [localMaximaFromAux] at hm
  | succ fuel ih =>
    intro i m hi hm
    simp only [localMaximaFromAux] at hm
    by_cases h1 : i < iMax
    · rw [if_pos h1] at hm
      by_cases h2 : 1 ≤ i ∧ x[i - 1]! < x[i]!
      · rw [if_pos h2] at hm
        by_cases h3 : x[plateauEnd x (x[i]!) iMax (i + 1)]! < x[i]!
        · rw [if_pos h3] at hm
          have hia_ge : i + 1 ≤ plateauEnd x (x[i]!) iMax (i + 1) := plateauEnd_ge x _ iMax _
          have hia_le : plateauEnd x (x[i]!) iMax (i + 1) ≤ iMax :=
            plateauEnd_le x _ iMax _ (by omega)
          rcases List.mem_cons.mp hm with hm | hm
          · refine ⟨i, plateauEnd x (x[i]!) iMax (i + 1) - 1, h2.1, h1, by omega, by omega,
              by omega, h2.2, ?_, ?_⟩
            · intro j hj1 hj2
              rcases Nat.eq_or_lt_of_le hj1 with hji | hji
              · rw [← hji]
              · exact plateauEnd_plateau x (x[i]!) iMax (i + 1) j (by omega) (by omega)
            · have hr1 : plateauEnd x (x[i]!) iMax (i + 1) - 1 + 1
                  = plateauEnd x (x[i]!) iMax (i + 1) := by omega
              rw [hr1]
              exact h3
          · exact ih _ m (by omega) hm
        · rw [if_neg h3] at hm
          exact ih _ m (by omega) hm
      · rw [if_neg h2] at hm
        exact ih _ m (by omega) hm
    · rw [if_neg h1] at hm
      simp at hm

/-- Membership characterization for `localMaxima`. -/
theorem localMaxima_spec (x : Array ℚ) (m : Nat) (hm : m ∈ localMaxima x) :
    ∃ l r, 1 ≤ l ∧ l < x.size - 1 ∧ l ≤ r ∧ r + 1 ≤ x.size - 1 ∧ m = (l + r) / 2 ∧
      x[l - 1]! < x[l]! ∧ (∀ j, l ≤ j → j ≤ r → x[j]! = x[l]!) ∧ x[r + 1]! < x[l]! :=
  localMaximaFromAux_spec x (x.size - 1) _ 1 m (le_refl 1) hm

theorem getElem!_map_neg (x : Array ℚ) (j : Nat) (h : j < x.size) :
    (x.map (fun q => -q))[j]! = -(x[j]!) := by
  have hsz : j < (x.map fun q => -q).size := by simpa using h
  rw [getElem!_pos (x.map (fun q => -q)) j hsz, getElem!_pos x j h]
  simp

/-- No sample index is simultaneously a local maximum of the slope and
of the negated slope: the plateaus of the two signals coincide, and a
plateau cannot rise on the left in both signs at once. -/
theorem localMaxima_disjoint (x : Array ℚ) (m : Nat)
    (h1 : m ∈ localMaxima x) (h2 : m ∈ localMaxima (x.map (fun q => -q))) : False := by
  obtain ⟨l, r, h1l, hlmax, hlr, hr1, hmval, hrise, hplat, _⟩ := localMaxima_spec x m h1
  obtain ⟨l', r', h1l', hlmax', hlr', hr1', hmval', hrise', hplat', _⟩ :=
    localMaxima_spec _ m h2
  have hsz : (x.map (fun q => -q)).size = x.size := by simp
  rw [hsz] at hlmax' hr1'
  have hrise2 : x[l']! < x[l' - 1]! := by
    have hb1 : l' - 1 < x.size := by omega
    have hb2 : l' < x.size := by omega
    have hr := hrise'
    rw [getElem!_map_neg x _ hb1, getElem!_map_neg x _ hb2] at hr
    linarith
  have hplat2 : ∀ j, l' ≤ j → j ≤ r' → x[j]! = x[l']! := by
    intro j hj1 hj2
    have hbj : j < x.size := by omega
    have hbl : l' < x.size := by omega
    have hp := hplat' j hj1 hj2
    rw [getElem!_map_neg x _ hbj, getElem!_map_neg x _ hbl] at hp
    linarith
  have hm1 : l ≤ m ∧ m ≤ r := by omega
  have hm2 : l' ≤ m ∧ m ≤ r' := by omega
  rcases Nat.lt_trichotomy l l' with hc | hc | hc
  · have e1 : x[l' - 1]! = x[l]! := hplat (l' - 1) (by omega) (by omega)
    have e2 : x[l']! = x[l]! := hplat l' (by omega) (by omega)
    rw [e1, e2] at hrise2
    exact lt_irrefl _ hrise2
  · subst hc
    exact absurd hrise (not_lt.mpr (le_of_lt hrise2))
  · have e1 : x[l - 1]! = x[l']! := hplat2 (l - 1) (by omega) (by omega)
    have e2 : x[l]! = x[l']! := hplat2 l (by omega) (by omega)
    rw [e1, e2] at hrise
    exact lt_irrefl _ hrise

/-! ### Edge Detector lemmas: the found peak sets are ascending subsets
of the local maxima, and the two polarity channels are disjoint. -/

theorem toArray_getElem! (peaks : List Nat) (i : Nat) (h : i < peaks.length) :
    peaks.toArray[i]! = peaks[i] := by
  have hsz : i < peaks.toArray.size := by simpa using h
  rw [getElem!_pos peaks.toArray i hsz]
  simp

theorem selectByPeakDistance_subset (peaks : List Nat) (prio : List ℚ) (dist : ℚ)
    (y : Nat) (hy : y ∈ selectByPeakDistance peaks prio dist) : y ∈ peaks := by
  rw [selectByPeakDistance] at hy
  rcases List.mem_map.mp hy with ⟨i, hi, hiy⟩
  have hin : i < peaks.length := List.mem_range.mp (List.mem_of_mem_filter hi)
  rw [← hiy, toArray_getElem! peaks i hin]
  exact List.getElem_mem hin

theorem selectByPeakDistance_pairwise (peaks : List Nat) (prio : List ℚ) (dist : ℚ)
    (hp : peaks.Pairwise (· < ·)) :
    (selectByPeakDistance peaks prio dist).Pairwise (· < ·) := by
  rw [selectByPeakDistance, List.pairwise_map]
  have h1 : ((List.range peaks.length).filter
      (fun i => (selectKeep peaks prio dist)[i]!)).Pairwise (· < ·) :=
    List.Pairwise.filter _ (List.pairwise_lt_range _)
  refine List.Pairwise.imp_of_mem ?_ h1
  intro a b ha hb hab
  have haL : a < peaks.length := List.mem_range.mp (List.mem_of_mem_filter ha)
  have hbL : b < peaks.length := List.mem_range.mp (List.mem_of_mem_filter hb)
  rw [toArray_getElem! peaks a haL, toArray_getElem! peaks b hbL]
  exact List.pairwise_iff_getElem.mp hp a b haL hbL hab

theorem findPeaks_subset (x : Array ℚ) (h d p : ℚ) (y : Nat)
    (hy : y ∈ findPeaks x h d p) : y ∈ localMaxima x := by
  rw [findPeaks] at hy
  exact List.mem_of_mem_filter
    (selectByPeakDistance_subset _ _ _ y (List.mem_of_mem_filter hy))

theorem findPeaks_pairwise (x : Array ℚ) (h d p : ℚ) :
    (findPeaks x h d p).Pairwise (· < ·) := by
  rw [findPeaks]
  exact List.Pairwise.filter _
    (selectByPeakDistance_pairwise _ _ _ (List.Pairwise.filter _ (localMaxima_pairwise x)))

/-- The merged Edge Set has strictly increasing offsets: each polarity
channel is strictly ascending, the channels share no offset, and the
final sort is a permutation that orders offsets ascending. -/
theorem findEdges_pairwise_fst_lt (slope : Array ℚ) (hn hp dn dr pn pp : ℚ) :
    (findEdges slope hn hp dn dr pn pp).Pairwise (fun a b : Edge => a.1 < b.1) := by
  rw [findEdges]
  have hle := sortByOffset_pairwise_le
    ((findPeaks (slope.map (fun q => -q)) hn dn pn).map (fun i => (i, false)) ++
      (findPeaks slope hp dr pp).map (fun i => (i, true)))
  have hne : (((findPeaks (slope.map (fun q => -q)) hn dn pn).map (fun i => (i, false)) ++
      (findPeaks slope hp dr pp).map (fun i => (i, true))) :
        List Edge).Pairwise (fun a b => a.1 ≠ b.1) := by
    rw [List.pairwise_append]
    refine ⟨?_, ?_, ?_⟩
    · rw [List.pairwise_map]
      exact (findPeaks_pairwise _ hn dn pn).imp (fun hab => Nat.ne_of_lt hab)
    · rw [List.pairwise_map]
      exact (findPeaks_pairwise _ hp dr pp).imp (fun hab => Nat.ne_of_lt hab)
    · intro a ha b hb
      rcases List.mem_map.mp ha with ⟨i, hi, hia⟩
      rcases List.mem_map.mp hb with ⟨j, hj, hjb⟩
      rw [← hia, ← hjb]
      intro hij
      have hij2 : i = j := hij
      have hij' : j ∈ localMaxima (slope.map (fun q => -q)) :=
        hij2 ▸ findPeaks_subset _ hn dn pn i hi
      exact localMaxima_disjoint slope j (findPeaks_subset slope hp dr pp j hj) hij'
  have hne' := (List.Perm.pairwise_iff (fun {_ _} h => Ne.symm h)
    (sortByOffset_perm _)).mpr hne
  exact (hle.and hne').imp (fun hab => lt_of_le_of_ne hab.1 hab.2)

/-! ### Claim C2: the Edge Set is strictly ascending with no duplicates -/

/-- C2: for every input slope signal and every choice of height,
prominence and distance parameters, the Edge Set returned by the edge
detector (the merge of the independently found falling-peak and
rising-peak index sets) has strictly increasing offsets with no
duplicate offset — in particular no sample index appears both as a
falling and as a rising edge. -/
theorem edge_set_strictly_increasing (slope : Array ℚ) (hn hp dn dr pn pp : ℚ) :
    (findEdges slope hn hp dn dr pn pp).Pairwise (fun a b : Edge => a.1 < b.1) :=
  findEdges_pairwise_fst_lt slope hn hp dn dr pn pp

/-! ### Pipeline support lemmas -/

theorem findEdges_empty (hn hp dn dr pn pp : ℚ) :
    findEdges #[] hn hp dn dr pn pp = [] := rfl

theorem resolvePolarity_length (edges : List Edge) :
    (resolvePolarity edges).length = edges.length := by
  have h := congrArg List.length (resolvePolarity_map_fst edges)
  simpa using h

theorem resolvePolarity_pairwise_fst (edges : List Edge)
    (h : edges.Pairwise (fun a b : Edge => a.1 < b.1)) :
    (resolvePolarity edges).Pairwise (fun a b : Edge => a.1 < b.1) := by
  cases edges with
  | nil => exact h
  | cons e rest =>
    unfold resolvePolarity
    rw [resolvePolarityWithWarning_cons]
    split
    · exact h
    · split
      · show ((e :: rest).map (fun f => (f.1, !f.2))).Pairwise _
        rw [List.pairwise_map]
        exact h
      · exact h

theorem pipelineTrimmed_size (slope ref : Array ℚ) (ρ : ℚ) :
    (pipelineTrimmed slope ref ρ).size =
      min (pipelineStop slope ref ρ - pipelineStart slope ref ρ)
        (slope.size - pipelineStart slope ref ρ) := by
  rw [pipelineTrimmed]
  simp [arraySlice]

theorem pipelineEdges_of_empty_upsampled (upsample : Array ℚ → Array ℚ)
    (slope ref : Array ℚ) (ρ dsRate τ Δt rnh rph rnp rpp : ℚ)
    (h0 : (pipelineUpsampled upsample slope ref ρ).size = 0) :
    pipelineEdges upsample slope ref ρ dsRate τ Δt rnh rph rnp rpp = [] := by
  have hemp : pipelineUpsampled upsample slope ref ρ = #[] := by
    cases hcase : pipelineUpsampled upsample slope ref ρ with
    | mk l =>
      cases l with
      | nil => rfl
      | cons a t =>
        rw [hcase] at h0
        simp [Array.size] at h0
  rw [pipelineEdges, hemp]
  exact findEdges_empty _ _ _ _ _ _

/-- When the candidate check passes, the trimmed slope is nonempty, so a
size-preserving upsampler yields a nonempty upsampled slope. -/
theorem pipelineUpsampled_ne_zero (upsample : Array ℚ → Array ℚ) (slope ref : Array ℚ)
    (ρ : ℚ) (href : 0 < ref.size) (hrs : ref.size ≤ slope.size)
    (hpres : ∀ a : Array ℚ, a.size ≠ 0 → (upsample a).size ≠ 0)
    (hc : ¬ (pipelineCandidates slope ref ρ).length ≤ 1) :
    (pipelineUpsampled upsample slope ref ρ).size ≠ 0 := by
  have hne : pipelineCandidates slope ref ρ ≠ [] := by
    intro h0
    rw [h0] at hc
    simp at hc
  obtain ⟨h1, h2, h3⟩ := pipeline_start_stop_bounds slope ref ρ href hrs hne
  apply hpres
  rw [pipelineTrimmed_size]
  omega

/-! ### Claim C6: fatal detection failures -/

/-- C6: the run aborts with an error (non-zero exit status, no
primary-output rows) exactly when the boundary-candidate set has fewer
than two elements or the Edge Set after the full pipeline is empty; in
every other case both checks pass and the output stage emits one row per
detected edge. (`upsample` abstracts the polyphase resampler, which
never empties a nonempty signal.) -/
theorem fatal_detection_failures (upsample : Array ℚ → Array ℚ) (slope ref : Array ℚ)
    (ρ dsRate τ Δt rnh rph rnp rpp : ℚ)
    (href : 0 < ref.size) (hrs : ref.size ≤ slope.size)
    (hpres : ∀ a : Array ℚ, a.size ≠ 0 → (upsample a).size ≠ 0) :
    ((∃ msg, analyzePipeline upsample slope ref ρ dsRate τ Δt rnh rph rnp rpp
        = Except.error msg) ↔
      ((pipelineCandidates slope ref ρ).length ≤ 1 ∨
        pipelineEdges upsample slope ref ρ dsRate τ Δt rnh rph rnp rpp = [])) ∧
    ∀ rows, analyzePipeline upsample slope ref ρ dsRate τ Δt rnh rph rnp rpp
        = Except.ok rows →
      rows.length = (pipelineEdges upsample slope ref ρ dsRate τ Δt rnh rph rnp rpp).length ∧
      0 < rows.length := by
  constructor
  · constructor
    · rintro ⟨msg, hmsg⟩
      by_cases hc : (pipelineCandidates slope ref ρ).length ≤ 1
      · exact Or.inl hc
      · have hup := pipelineUpsampled_ne_zero upsample slope ref ρ href hrs hpres hc
        rw [analyzePipeline, if_neg hc, if_neg hup] at hmsg
        by_cases hedge : (pipelineEdges upsample slope ref ρ dsRate τ Δt rnh rph rnp
            rpp).length = 0
        · exact Or.inr (List.length_eq_zero.mp hedge)
        · rw [if_neg hedge] at hmsg
          cases hmsg
    · intro hor
      by_cases hc : (pipelineCandidates slope ref ρ).length ≤ 1
      · exact ⟨_, by rw [analyzePipeline, if_pos hc]⟩
      · have hup := pipelineUpsampled_ne_zero upsample slope ref ρ href hrs hpres hc
        rcases hor with hc' | hedge
        · exact absurd hc' hc
        · refine ⟨"assert edges.index.size > 0", ?_⟩
          rw [analyzePipeline, if_neg hc, if_neg hup, if_pos (by rw [hedge]; rfl)]
  · intro rows hrows
    by_cases hc : (pipelineCandidates slope ref ρ).length ≤ 1
    · rw [analyzePipeline, if_pos hc] at hrows
      cases hrows
    · have hup := pipelineUpsampled_ne_zero upsample slope ref ρ href hrs hpres hc
      rw [analyzePipeline, if_neg hc, if_neg hup] at hrows
      by_cases hedge : (pipelineEdges upsample slope ref ρ dsRate τ Δt rnh rph rnp
          rpp).length = 0
      · rw [if_pos hedge] at hrows
        cases hrows
      · rw [if_neg hedge] at hrows
        have hrows' := Except.ok.inj hrows
        constructor
        · rw [← hrows', List.length_map, resolvePolarity_length]
        · rw [← hrows', List.length_map, resolvePolarity_length]
          omega

/-- Witness for `fatal_detection_failures`: the identity upsampler on
the slope `[0, 1, 0, 2, 0]` with reference `[1]` (three edges found, run
succeeds). -/
theorem fatal_detection_failures_witness :
    0 < (#[(1 : ℚ)] : Array ℚ).size ∧
    (#[(1 : ℚ)] : Array ℚ).size ≤ (#[(0 : ℚ), 1, 0, 2, 0] : Array ℚ).size ∧
    (∀ a : Array ℚ, a.size ≠ 0 → (id a).size ≠ 0) ∧
    (((∃ msg, analyzePipeline id #[(0 : ℚ), 1, 0, 2, 0] #[(1 : ℚ)] 0 1 1 (1/2) 0 0 0 0
        = Except.error msg) ↔
      ((pipelineCandidates #[(0 : ℚ), 1, 0, 2, 0] #[(1 : ℚ)] 0).length ≤ 1 ∨
        pipelineEdges id #[(0 : ℚ), 1, 0, 2, 0] #[(1 : ℚ)] 0 1 1 (1/2) 0 0 0 0 = [])) ∧
    ∀ rows, analyzePipeline id #[(0 : ℚ), 1, 0, 2, 0] #[(1 : ℚ)] 0 1 1 (1/2) 0 0 0 0
        = Except.ok rows →
      rows.length = (pipelineEdges id #[(0 : ℚ), 1, 0, 2, 0] #[(1 : ℚ)] 0 1 1 (1/2)
        0 0 0 0).length ∧
      0 < rows.length) :=
  ⟨by decide, by decide, fun _ h => h,
    fatal_detection_failures id #[(0 : ℚ), 1, 0, 2, 0] #[(1 : ℚ)] 0 1 1 (1/2) 0 0 0 0
      (by decide) (by decide) (fun _ h => h)⟩

/-! ### Claim C7: ambiguous polarity is non-fatal -/

/-- C7: for every Edge Set whose first and last edges have the same
polarity, the Polarity Resolver emits a warning on the diagnostics
channel and leaves every edge boolean and offset unmodified, and the
pipeline still produces the full output table using the unresolved
polarity labels. -/
theorem ambiguous_polarity_nonfatal (upsample : Array ℚ → Array ℚ) (slope ref : Array ℚ)
    (ρ dsRate τ Δt rnh rph rnp rpp : ℚ)
    (hc : ¬ (pipelineCandidates slope ref ρ).length ≤ 1)
    (e : Edge) (rest : List Edge)
    (hedges : pipelineEdges upsample slope ref ρ dsRate τ Δt rnh rph rnp rpp = e :: rest)
    (hsame : e.2 = ((e :: rest).getLast (by simp)).2) :
    resolvePolarityWithWarning (e :: rest) = (true, e :: rest) ∧
    analyzePipeline upsample slope ref ρ dsRate τ Δt rnh rph rnp rpp =
      Except.ok ((e :: rest).map (fun f => (((f.1 : ℚ) +
        (pipelineStart slope ref ρ : ℚ) * upsampleRatio τ dsRate) /
        (dsRate * upsampleRatio τ dsRate), f.2))) := by
  have hwarn := resolvePolarity_of_same e rest hsame
  refine ⟨hwarn, ?_⟩
  have hup : ¬ (pipelineUpsampled upsample slope ref ρ).size = 0 := by
    intro h0
    have hemp := pipelineEdges_of_empty_upsampled upsample slope ref ρ dsRate τ Δt
      rnh rph rnp rpp h0
    rw [hedges] at hemp
    cases hemp
  have hlen : ¬ (pipelineEdges upsample slope ref ρ dsRate τ Δt rnh rph rnp
      rpp).length = 0 := by
    rw [hedges]
    simp
  rw [analyzePipeline, if_neg hc, if_neg hup, if_neg hlen, hedges]
  have hres : resolvePolarity (e :: rest) = e :: rest := by
    rw [resolvePolarity, hwarn]
  rw [hres]

/-- Witness for `ambiguous_polarity_nonfatal`: slope
`[0, -2, 0, 3, 0, -1, 0]` yields edges falling-rising-falling, so the
first and last edges are both falling; the run still succeeds. -/
theorem ambiguous_polarity_nonfatal_witness :
    ¬ (pipelineCandidates #[(0 : ℚ), -2, 0, 3, 0, -1, 0] #[(1 : ℚ)] 0).length ≤ 1 ∧
    pipelineEdges id #[(0 : ℚ), -2, 0, 3, 0, -1, 0] #[(1 : ℚ)] 0 1 1 (1/2) (1/10) (1/10)
      (1/10) (1/10) = ((1, false) : Edge) :: [((3, true) : Edge), ((5, false) : Edge)] ∧
    ((1, false) : Edge).2 = ((((1, false) : Edge) :: [((3, true) : Edge),
      ((5, false) : Edge)]).getLast (by simp)).2 ∧
    (resolvePolarityWithWarning (((1, false) : Edge) :: [((3, true) : Edge),
        ((5, false) : Edge)]) = (true, ((1, false) : Edge) :: [((3, true) : Edge),
        ((5, false) : Edge)]) ∧
      analyzePipeline id #[(0 : ℚ), -2, 0, 3, 0, -1, 0] #[(1 : ℚ)] 0 1 1 (1/2) (1/10)
          (1/10) (1/10) (1/10) =
        Except.ok ((((1, false) : Edge) :: [((3, true) : Edge), ((5, false) : Edge)]).map
          (fun f => (((f.1 : ℚ) +
            (pipelineStart #[(0 : ℚ), -2, 0, 3, 0, -1, 0] #[(1 : ℚ)] 0 : ℚ) *
              upsampleRatio 1 1) / ((1 : ℚ) * upsampleRatio 1 1), f.2)))) :=
  ⟨by with_unfolding_all decide, by with_unfolding_all decide, by decide,
    ambiguous_polarity_nonfatal id #[(0 : ℚ), -2, 0, 3, 0, -1, 0] #[(1 : ℚ)] 0 1 1 (1/2)
      (1/10) (1/10) (1/10) (1/10) (by with_unfolding_all decide) (1, false)
      [((3, true) : Edge), ((5, false) : Edge)] (by with_unfolding_all decide) (by decide)⟩

/-! ### Claim C8: the Output Formatter -/

/-- C8: whenever the run succeeds, every emitted row's timestamp equals
(edge offset + boundary start offset in final upsampled coordinates)
divided by the final sample rate, there is exactly one row per edge of
the final Edge Set, and the rows are ordered strictly ascending by
timestamp. -/
theorem output_formatter_spec (upsample : Array ℚ → Array ℚ) (slope ref : Array ℚ)
    (ρ dsRate τ Δt rnh rph rnp rpp : ℚ) (hτ : 0 < τ) (hR : 0 < dsRate)
    (rows : List (ℚ × Bool))
    (hok : analyzePipeline upsample slope ref ρ dsRate τ Δt rnh rph rnp rpp
      = Except.ok rows) :
    rows = (resolvePolarity (pipelineEdges upsample slope ref ρ dsRate τ Δt rnh rph rnp
        rpp)).map
      (fun e => (((e.1 : ℚ) + (pipelineStart slope ref ρ : ℚ) * upsampleRatio τ dsRate) /
        (dsRate * upsampleRatio τ dsRate), e.2)) ∧
    rows.length
      = (pipelineEdges upsample slope ref ρ dsRate τ Δt rnh rph rnp rpp).length ∧
    rows.Pairwise (fun a b => a.1 < b.1) := by
  by_cases hc : (pipelineCandidates slope ref ρ).length ≤ 1
  · rw [analyzePipeline, if_pos hc] at hok
    cases hok
  · by_cases hup : (pipelineUpsampled upsample slope ref ρ).size = 0
    · rw [analyzePipeline, if_neg hc, if_pos hup] at hok
      cases hok
    · by_cases hedge : (pipelineEdges upsample slope ref ρ dsRate τ Δt rnh rph rnp
          rpp).length = 0
      · rw [analyzePipeline, if_neg hc, if_neg hup, if_pos hedge] at hok
        cases hok
      · rw [analyzePipeline, if_neg hc, if_neg hup, if_neg hedge] at hok
        have hrows := (Except.ok.inj hok).symm
        refine ⟨hrows, ?_, ?_⟩
        · rw [hrows, List.length_map, resolvePolarity_length]
        · rw [hrows, List.pairwise_map]
          have hpw : (resolvePolarity (pipelineEdges upsample slope ref ρ dsRate τ Δt
              rnh rph rnp rpp)).Pairwise (fun a b : Edge => a.1 < b.1) := by
            refine resolvePolarity_pairwise_fst _ ?_
            rw [pipelineEdges]
            exact findEdges_pairwise_fst_lt _ _ _ _ _ _ _
          have hrate : 0 < dsRate * upsampleRatio τ dsRate := by
            have h1 : 0 < (1 / τ) / dsRate := by positivity
            have h2 : (0 : ℤ) < ⌈(1 / τ) / dsRate⌉ := Int.ceil_pos.mpr h1
            have h3 : 0 < upsampleRatio τ dsRate := by
              rw [upsampleRatio]
              exact_mod_cast h2
            positivity
          refine hpw.imp ?_
          intro a b hab
          apply div_lt_div_of_pos_right ?_ hrate
          have hcast : (a.1 : ℚ) < (b.1 : ℚ) := by
            exact_mod_cast hab
          exact add_lt_add_right hcast _

/-- Witness for `output_formatter_spec` on the concrete successful run
with slope `[0, 1, 0, 2, 0]` and reference `[1]`. -/
theorem output_formatter_spec_witness :
    0 < (1 : ℚ) ∧ 0 < (1 : ℚ) ∧
    analyzePipeline id #[(0 : ℚ), 1, 0, 2, 0] #[(1 : ℚ)] 0 1 1 (1/2) 0 0 0 0 =
      Except.ok [((1 : ℚ), true), ((2 : ℚ), false), ((3 : ℚ), true)] ∧
    ([((1 : ℚ), true), ((2 : ℚ), false), ((3 : ℚ), true)]
        = (resolvePolarity (pipelineEdges id #[(0 : ℚ), 1, 0, 2, 0] #[(1 : ℚ)] 0 1 1 (1/2)
            0 0 0 0)).map
          (fun e => (((e.1 : ℚ) +
              (pipelineStart #[(0 : ℚ), 1, 0, 2, 0] #[(1 : ℚ)] 0 : ℚ) *
                upsampleRatio 1 1) / ((1 : ℚ) * upsampleRatio 1 1), e.2)) ∧
      ([((1 : ℚ), true), ((2 : ℚ), false), ((3 : ℚ), true)] : List (ℚ × Bool)).length
        = (pipelineEdges id #[(0 : ℚ), 1, 0, 2, 0] #[(1 : ℚ)] 0 1 1 (1/2) 0 0 0 0).length ∧
      ([((1 : ℚ), true), ((2 : ℚ), false), ((3 : ℚ), true)] : List (ℚ × Bool)).Pairwise
        (fun a b => a.1 < b.1)) :=
  ⟨by decide, by decide, by with_unfolding_all decide,
    output_formatter_spec id #[(0 : ℚ), 1, 0, 2, 0] #[(1 : ℚ)] 0 1 1 (1/2) 0 0 0 0
      (by decide) (by decide) [((1 : ℚ), true), ((2 : ℚ), false), ((3 : ℚ), true)]
      (by with_unfolding_all decide)⟩

end Videojitter
